import Mathlib

/-!
Verification development for the VEA repository (batch video analyzer,
bulk downloader, clipper and frame-sampling utilities).

Python strings are modelled as lists of characters (`PyStr`), parsed JSON
values as the inductive `JValue`, machine floats that carry media durations
as exact rationals, and the external collaborators (yt-dlp, the Gemini
service, cv2) as explicit outcome parameters.  Each definition below
translates the corresponding Python function; line references point into
the repository sources.
-/

namespace VEA

/-- Python strings, modelled as their sequence of characters. -/
abbrev PyStr := List Char

/-- Python `str.strip()`: remove leading and trailing whitespace. -/
def pyStrip (s : PyStr) : PyStr :=
  (s.dropWhile Char.isWhitespace).rdropWhile Char.isWhitespace

/-! ## download_shorts.py -/

/-- The substring `"youtube.com"` used by the domain filter (line 51). -/
def ytDomainA : PyStr := "youtube.com".toList

/-- The substring `"youtu.be"` used by the domain filter (line 51). -/
def ytDomainB : PyStr := "youtu.be".toList

/-- `"youtube.com" in u or "youtu.be" in u` (line 51).  For string inputs the
`isinstance(u, str)` guard on the same line is always true. -/
def isYoutubeLink (u : PyStr) : Bool :=
  decide (ytDomainA <:+: u) || decide (ytDomainB <:+: u)

/-- Line 51 of `download_shorts.py`:
`links = [u.strip() for u in links if isinstance(u, str) and ("youtube.com" in u or "youtu.be" in u)]`. -/
def filterStripLinks (links : List PyStr) : List PyStr :=
  (links.filter isYoutubeLink).map pyStrip

/-- Lines 53-58 of `download_shorts.py`: the duplicate-removal loop over the
filtered links, carrying the `seen` set and the `uniq` accumulator. -/
def dedupLoop (seen : List PyStr) (uniq : List PyStr) : List PyStr → List PyStr
  | [] => uniq
  | u :: rest =>
    if u ∈ seen then dedupLoop seen uniq rest
    else dedupLoop (u :: seen) (uniq ++ [u]) rest

/-- Lines 50-59 of `download_shorts.py` (`load_links`): the pure link
transformation applied to the list of link strings.  For an input JSON that is
a flat list of strings, lines 33-35 (`links = [str(x) for x in data]`) are the
identity, so this is the whole extraction. -/
def load_links (links : List PyStr) : List PyStr :=
  dedupLoop [] [] (filterStripLinks links)

/-- First-occurrence-wins deduplication stated directly: keep the head, drop
every later copy of it, recurse.  Used to characterise `dedupLoop`. -/
def dedupFirstOcc : List PyStr → List PyStr
  | [] => []
  | u :: rest => u :: dedupFirstOcc (rest.filter (fun v => !(v = u : Bool)))
termination_by l => l.length
decreasing_by
  simp only [List.length_cons]
  exact Nat.lt_succ_of_le (List.length_filter_le _ _)

/-- The dedup loop with the `uniq` accumulator factored out: the elements the
loop will still append given the current `seen` set. -/
def dedupRest (seen : List PyStr) : List PyStr → List PyStr
  | [] => []
  | u :: rest =>
    if u ∈ seen then dedupRest seen rest else u :: dedupRest (u :: seen) rest

/-! ## JSON values -/

/-- Parsed JSON values.  Objects are association lists of key/value pairs. -/
inductive JValue where
  | null
  | bool (b : Bool)
  | num (q : ℚ)
  | str (s : PyStr)
  | arr (items : List JValue)
  | obj (fields : List (PyStr × JValue))

/-- Key lookup in a JSON object's field list (Python `d[k]` / `k in d`). -/
def lookupKey : List (PyStr × JValue) → PyStr → Option JValue
  | [], _ => none
  | (k, v) :: rest, key => if k = key then some v else lookupKey rest key

/-- Python `key in obj` for a JSON object. -/
def JValue.hasKey : JValue → PyStr → Bool
  | .obj fields, key => (lookupKey fields key).isSome
  | _, _ => false

/-- Python `item[key]` on a JSON value, `none` when absent or not an object. -/
def jGet : JValue → PyStr → Option JValue
  | .obj fields, key => lookupKey fields key
  | _, _ => none

/-- Python `item.get(key, default)`. -/
def jGetD (item : JValue) (key : PyStr) (default : JValue) : JValue :=
  (jGet item key).getD default

def urlKey : PyStr := "url".toList

def remarksKey : PyStr := "remarks".toList

def geminiResponseKey : PyStr := "gemini_response".toList

/-! ## video_analyzer.py -/

/-- The errors raised by `load_input_json` (lines 58-66): a non-list root, a
non-object element at an index, or an element missing the `url` field. -/
inductive InputError where
  | rootNotList
  | notObject (idx : Nat)
  | missingUrl (idx : Nat)
  deriving DecidableEq

/-- The index an `InputError` reports in its message, when it reports one. -/
def InputError.errIdx : InputError → Option Nat
  | .rootNotList => none
  | .notObject idx => some idx
  | .missingUrl idx => some idx

/-- An element passes validation when it is an object containing `"url"`. -/
def itemValid (item : JValue) : Bool :=
  match item with
  | .obj _ => item.hasKey urlKey
  | _ => false

/-- The validation loop of `load_input_json` (lines 62-66): walk the items in
index order, reporting the first offending index. -/
def validateItems (idx : Nat) : List JValue → Option InputError
  | [] => none
  | item :: rest =>
    match item with
    | .obj fields =>
      if (lookupKey fields urlKey).isSome then validateItems (idx + 1) rest
      else some (.missingUrl idx)
    | _ => some (.notObject idx)

/-- `load_input_json` (lines 51-68), applied to the parsed JSON `data`: the
root must be a list, every element an object with a `url` field; on success
the data is returned unchanged. -/
def load_input_json (data : JValue) : Except InputError (List JValue) :=
  match data with
  | .arr items =>
    match validateItems 0 items with
    | some e => .error e
    | none => .ok items
  | _ => .error .rootNotList

/-- The outcome of `download_video(url, temp_dir)` for one item: `fail` is the
`None` return (download error or missing output file), `fetched p` the
returned local file path. -/
inductive FetchOutcome where
  | fail
  | fetched (path : PyStr)

/-- The outcome of `analyze_video_with_gemini(path)` for one item: normal
return of the analysis text, or a raised exception with message `msg`. -/
inductive AnalyzeOutcome where
  | ok (text : PyStr)
  | raised (msg : PyStr)

/-- The external world's behaviour for one work item: what the fetch step and
(if reached) the analyze step would do. -/
structure ItemEnv where
  fetch : FetchOutcome
  analyze : AnalyzeOutcome

/-- The fixed message `"ERROR: 영상 다운로드 실패"` (line 152). -/
def downloadFailMsg : PyStr := "ERROR: 영상 다운로드 실패".toList

/-- The message `f"ERROR: Gemini 분석 실패 - {str(e)}"` (line 165). -/
def analyzeFailMsg (e : PyStr) : PyStr := "ERROR: Gemini 분석 실패 - ".toList ++ e

/-- `process_video` (lines 129-174).  Returns the result record together with
a flag recording whether the analyze step was invoked.  `item["url"]` is
modelled with a `.null` default; `main` only reaches this call with validated
items, for which the key is present.  `item.get("remarks", "")` is `jGetD`
with the empty-string default. -/
def process_video (item : JValue) (env : ItemEnv) : JValue × Bool :=
  let url := jGetD item urlKey .null
  let remarks := jGetD item remarksKey (.str [])
  match env.fetch with
  | .fail =>
    (.obj [(urlKey, url), (geminiResponseKey, .str downloadFailMsg), (remarksKey, remarks)],
     false)
  | .fetched _ =>
    match env.analyze with
    | .ok text =>
      (.obj [(urlKey, url), (geminiResponseKey, .str text), (remarksKey, remarks)], true)
    | .raised e =>
      (.obj [(urlKey, url), (geminiResponseKey, .str (analyzeFailMsg e)), (remarksKey, remarks)],
       true)

/-- The record appended for one work item (line 250). -/
def resultRecord (job : JValue × ItemEnv) : JValue := (process_video job.1 job.2).1

/-- The accumulator after the processing loop of `main` (lines 247-260):
start from the pre-existing results, append one record per item. -/
def runBatch (pre : List JValue) (jobs : List (JValue × ItemEnv)) : List JValue :=
  jobs.foldl (fun results job => results ++ [resultRecord job]) pre

/-- The sequence of result-file contents written by `save_results_to_file`
(line 254), one entry per completed item: after each item the whole
accumulator is serialized and written, so the file between items always holds
the complete accumulated array. -/
def runStates (pre : List JValue) : List (JValue × ItemEnv) → List (List JValue)
  | [] => []
  | job :: rest => (pre ++ [resultRecord job]) :: runStates (pre ++ [resultRecord job]) rest

/-- `main`'s load-then-process pipeline (lines 232-260): the input is
validated by `load_input_json` before the loop; a validation error aborts the
run before any item is fetched or analyzed, so no batch output exists. -/
def runPipeline (input : JValue) (pre : List JValue) (envs : List ItemEnv) :
    Option (List JValue) :=
  match load_input_json input with
  | .error _ => none
  | .ok items => some (runBatch pre (items.zip envs))

/-- The observable state of the output file when `load_existing_results` runs:
absent, present but failing `json.loads`, or parsed to a JSON value. -/
inductive FileState where
  | absent
  | unparseable
  | parsed (v : JValue)

/-- `load_existing_results` (lines 185-195): the parsed list when the file
exists and parses as a JSON list; `[]` when the file is absent, when parsing
raises (the exception is caught and logged), or when the parse result is not
a list. -/
def load_existing_results (file : FileState) : List JValue :=
  match file with
  | .absent => []
  | .unparseable => []
  | .parsed data =>
    match data with
    | .arr xs => xs
    | _ => []

/-! ## video_clipper.py -/

/-- Python float `a // b` followed by `int(...)` (line 88): the floor of the
exact quotient.  Durations are modelled as exact rationals. -/
def pyFloorDiv (a b : ℚ) : ℤ := ⌊a / b⌋

/-- Python float `a % b` (line 88): `a - b * (a // b)`. -/
def pyMod (a b : ℚ) : ℚ := a - b * ⌊a / b⌋

/-- Line 88: `num_clips = int(total_duration // clip_duration) + (1 if
total_duration % clip_duration > 0 else 0)`. -/
def num_clips (total_duration clip_duration : ℚ) : ℤ :=
  pyFloorDiv total_duration clip_duration +
    (if 0 < pyMod total_duration clip_duration then 1 else 0)

/-- The clip boundaries computed by the loop of `clip_video` (lines 92-95):
clip `i` starts at `i * clip_duration` and ends at
`min ((i+1) * clip_duration) total_duration`. -/
def clipSegments (total_duration clip_duration : ℚ) : List (ℚ × ℚ) :=
  (List.range (num_clips total_duration clip_duration).toNat).map
    (fun (i : ℕ) =>
      ((i : ℚ) * clip_duration, min (((i : ℚ) + 1) * clip_duration) total_duration))

/-! ## api/gemini_test.py -/

def processingState : PyStr := "PROCESSING".toList

def activeState : PyStr := "ACTIVE".toList

/-- The polling loop of `analyze_video_with_gemini` (lines 54-56): re-fetch
the file while its state is `"PROCESSING"`.  `states` is the sequence of
states the service reports on successive polls; the result is the first
non-`PROCESSING` state, `none` when the observed trace never leaves
`PROCESSING` (the loop is still running). -/
def pollFileState : List PyStr → Option PyStr
  | [] => none
  | s :: rest => if s = processingState then pollFileState rest else some s

/-- What `analyze_video_with_gemini` does after the upload (lines 54-63):
poll until a non-`PROCESSING` state; if that state is not `"ACTIVE"`, raise
`RuntimeError(f"Gemini file upload failed: state=...")` naming the state;
otherwise proceed to the `generate_content` request.  `some (.ok ())` marks
that the generate-content request is issued; `some (.error msg)` the raised
error; `none` a trace on which the loop has not finished. -/
def geminiAfterUpload (states : List PyStr) : Option (Except PyStr Unit) :=
  match pollFileState states with
  | none => none
  | some st =>
    if st = activeState then some (.ok ())
    else some (.error ("Gemini file upload failed: state=".toList ++ st))

/-! ## api/utils.py -/

/-- `np.linspace(0, T - 1, n, dtype=int)` (lines 46 and 50) with exact
arithmetic: the truncation of `i * (T-1) / (n-1)` toward zero, which for
these non-negative values is floor division.  For `n = 1` numpy yields `[0]`,
matched here because Lean's `Nat` division by `0` is `0`. -/
def linspaceIdx (T n : Nat) : List Nat :=
  (List.range n).map (fun i => i * (T - 1) / (n - 1))

/-- A video as cv2 exposes it to `sample_video_frames`: whether
`VideoCapture` opened it, the frames actually decodable in order (a read at
position `i` succeeds exactly when `i < frames.length`), and the
`CAP_PROP_FRAME_COUNT` metadata, which is a container header value and may
disagree with the decodable frame count or be non-positive. -/
structure Video where
  opened : Bool
  frames : List Nat
  reportedFrameCount : Int

/-- The exceptions `sample_video_frames` can raise. -/
inductive SampleError where
  | numFramesNotPositive
  | openFailed
  | noFramesRead
  deriving DecidableEq

/-- `sample_video_frames` (lines 24-61).  The `num_frames <= 0` check
precedes any use of the video.  When the frame-count metadata is
non-positive, the fallback reads all frames sequentially and either returns
them all (when at most `num_frames`) or evenly samples them; otherwise the
code seeks to each `linspace` index and keeps the successful reads. -/
def sample_video_frames (v : Video) (num_frames : Int) : Except SampleError (List Nat) :=
  if num_frames ≤ 0 then .error .numFramesNotPositive
  else if !v.opened then .error .openFailed
  else
    let n := num_frames.toNat
    if v.reportedFrameCount ≤ 0 then
      let frames := v.frames
      if frames.isEmpty then .error .noFramesRead
      else if frames.length ≤ n then .ok frames
      else .ok ((linspaceIdx frames.length n).filterMap (fun i => frames.get? i))
    else
      let idxs := linspaceIdx v.reportedFrameCount.toNat n
      let sampled := idxs.filterMap (fun i => v.frames.get? i)
      if sampled.isEmpty then .error .noFramesRead
      else .ok sampled

/-! ## Supporting lemmas: the orchestrator loop -/

theorem runBatch_eq_append (pre : List JValue) (jobs : List (JValue × ItemEnv)) :
    runBatch pre jobs = pre ++ jobs.map resultRecord := by
  induction jobs generalizing pre with
  | nil => simp [runBatch]
  | cons j rest ih =>
    have h : runBatch pre (j :: rest) = runBatch (pre ++ [resultRecord j]) rest := rfl
    rw [h, ih]
    simp

theorem runStates_length (pre : List JValue) (jobs : List (JValue × ItemEnv)) :
    (runStates pre jobs).length = jobs.length := by
  induction jobs generalizing pre with
  | nil => rfl
  | cons j rest ih => simp [runStates, ih]

theorem runStates_getElem? (pre : List JValue) (jobs : List (JValue × ItemEnv)) :
    ∀ i, i < jobs.length →
      (runStates pre jobs)[i]? = some (pre ++ (jobs.take (i + 1)).map resultRecord) := by
  induction jobs generalizing pre with
  | nil => intro i hi; simp at hi
  | cons j rest ih =>
    intro i hi
    cases i with
    | zero => simp [runStates]
    | succ i =>
      have h := ih (pre ++ [resultRecord j]) i (by simpa using Nat.lt_of_succ_lt_succ hi)
      simp only [runStates, List.getElem?_cons_succ, h, List.take_succ_cons, List.map_cons]
      simp

theorem runStates_getLast? (pre : List JValue) (jobs : List (JValue × ItemEnv))
    (h : jobs ≠ []) :
    (runStates pre jobs).getLast? = some (runBatch pre jobs) := by
  have hlen : (runStates pre jobs).length = jobs.length := runStates_length pre jobs
  have hpos : 0 < jobs.length := List.length_pos.mpr h
  rw [List.getLast?_eq_getElem?, hlen,
    runStates_getElem? pre jobs (jobs.length - 1) (by omega)]
  rw [Nat.sub_add_cancel hpos, List.take_length, runBatch_eq_append]

theorem runStates_mem_prefix (jobs : List (JValue × ItemEnv)) :
    ∀ pre s, s ∈ runStates pre jobs → pre <+: s := by
  induction jobs with
  | nil => intro pre s hs; simp [runStates] at hs
  | cons j rest ih =>
    intro pre s hs
    rcases (by simpa [runStates] using hs :
        s = pre ++ [resultRecord j] ∨ s ∈ runStates (pre ++ [resultRecord j]) rest) with
      rfl | hs'
    · exact ⟨[resultRecord j], rfl⟩
    · exact (List.prefix_append pre [resultRecord j]).trans (ih _ _ hs')

theorem append_prefix_append {α : Type _} {l a b : List α} (h : a <+: b) :
    l ++ a <+: l ++ b := by
  obtain ⟨t, rfl⟩ := h
  exact ⟨t, by simp⟩

/-! ## Claims about the batch orchestrator -/

/-- C1: after a full run over an input list of `n` work items, the in-memory
result list holds exactly `n` more records than the pre-existing results
loaded at startup — one appended record per item whether it succeeded or
failed — and (when at least one item was processed) the last saved file is
exactly that list. -/
theorem run_appends_one_record_per_item (pre : List JValue) (jobs : List (JValue × ItemEnv)) :
    (runBatch pre jobs).length = pre.length + jobs.length ∧
    (jobs ≠ [] → (runStates pre jobs).getLast? = some (runBatch pre jobs)) := by
  refine ⟨?_, fun h => runStates_getLast? pre jobs h⟩
  rw [runBatch_eq_append]
  simp

/-- Witness for C1 at a concrete two-item batch (one fetch failure, one
success) over one pre-existing record. -/
theorem run_appends_one_record_per_item_witness :
    (runBatch [JValue.null]
      [(JValue.obj [(urlKey, .str "u1".toList)], ⟨.fail, .ok []⟩),
       (JValue.obj [(urlKey, .str "u2".toList)], ⟨.fetched "p".toList, .ok "t".toList⟩)]).length
        = 1 + 2 ∧
    (runStates [JValue.null]
      [(JValue.obj [(urlKey, .str "u1".toList)], ⟨.fail, .ok []⟩),
       (JValue.obj [(urlKey, .str "u2".toList)], ⟨.fetched "p".toList, .ok "t".toList⟩)]).getLast?
      = some (runBatch [JValue.null]
        [(JValue.obj [(urlKey, .str "u1".toList)], ⟨.fail, .ok []⟩),
         (JValue.obj [(urlKey, .str "u2".toList)], ⟨.fetched "p".toList, .ok "t".toList⟩)]) :=
  ⟨(run_appends_one_record_per_item _ _).1,
   (run_appends_one_record_per_item _ _).2 (by simp)⟩

/-- C2: the result store is logically append-only and prefix-preserving.
The file after step `i` is exactly the pre-existing records followed by the
records of the first `i+1` items in processing order; earlier file states are
prefixes of later ones (no persisted record is modified or removed); and a
restart seeded from the file left after item `k` only ever appends after it:
every file state of the resumed run has the pre-kill file as a prefix, so its
first `(pre-kill length)` records equal the pre-kill file.  Each state is a
complete array of records, matching the whole-file rewrite of
`save_results_to_file`. -/
theorem result_store_prefix_preserving (pre : List JValue) (jobs : List (JValue × ItemEnv)) :
    (∀ i, i < jobs.length →
      (runStates pre jobs)[i]? = some (pre ++ (jobs.take (i + 1)).map resultRecord)) ∧
    (∀ (i j : Nat) (si sj : List JValue), i ≤ j →
      (runStates pre jobs)[i]? = some si → (runStates pre jobs)[j]? = some sj →
      si <+: sj) ∧
    (∀ k (jobs₂ : List (JValue × ItemEnv)) s,
      s ∈ runStates (pre ++ (jobs.take k).map resultRecord) jobs₂ →
      (pre ++ (jobs.take k).map resultRecord) <+: s ∧
      s.take (pre ++ (jobs.take k).map resultRecord).length
        = pre ++ (jobs.take k).map resultRecord) := by
  refine ⟨runStates_getElem? pre jobs, ?_, ?_⟩
  · intro i j si sj hij hi hj
    have hilt : i < (runStates pre jobs).length := (List.getElem?_eq_some.mp hi).1
    have hjlt : j < (runStates pre jobs).length := (List.getElem?_eq_some.mp hj).1
    rw [runStates_length] at hilt hjlt
    rw [runStates_getElem? pre jobs i hilt] at hi
    rw [runStates_getElem? pre jobs j hjlt] at hj
    obtain rfl : si = pre ++ (jobs.take (i + 1)).map resultRecord := by
      exact (Option.some.injEq _ _ ▸ hi).symm
    obtain rfl : sj = pre ++ (jobs.take (j + 1)).map resultRecord := by
      exact (Option.some.injEq _ _ ▸ hj).symm
    apply append_prefix_append
    have htk : jobs.take (i + 1) = (jobs.take (j + 1)).take (i + 1) := by
      rw [List.take_take, min_eq_left (by omega)]
    rw [htk]
    exact (List.take_prefix (i + 1) (jobs.take (j + 1))).map resultRecord
  · intro k jobs₂ s hs
    have hpre := runStates_mem_prefix jobs₂ _ s hs
    exact ⟨hpre, (List.prefix_iff_eq_take.mp hpre).symm⟩

/-- Witness for C2 at a concrete run: one pre-existing record, two processed
items, then a resumed run of one further item from the file left after
item 2. -/
theorem result_store_prefix_preserving_witness :
    ((runStates [JValue.null]
        [(JValue.obj [(urlKey, .str "u1".toList)], ⟨.fail, .ok []⟩),
         (JValue.obj [(urlKey, .str "u2".toList)], ⟨.fetched "p".toList, .ok "t".toList⟩)])[0]?
      = some ([JValue.null] ++
          (([(JValue.obj [(urlKey, .str "u1".toList)], (⟨.fail, .ok []⟩ : ItemEnv)),
             (JValue.obj [(urlKey, .str "u2".toList)],
               (⟨.fetched "p".toList, .ok "t".toList⟩ : ItemEnv))].take 1).map resultRecord))) := by
  exact (result_store_prefix_preserving [JValue.null] _).1 0 (by simp)

/-! ## Claims about per-item processing -/

theorem jGet_record_remarks (u r rem : JValue) :
    jGet (.obj [(urlKey, u), (geminiResponseKey, r), (remarksKey, rem)]) remarksKey
      = some rem := by
  show lookupKey _ _ = some rem
  simp only [lookupKey]
  rw [if_neg (by decide), if_neg (by decide)]
  simp

/-- C6: per-item failures are isolated and converted to data.  A fetch
failure yields a record whose response is the fixed `"ERROR:"`-prefixed
download-failure string with the analyze step skipped; a fetch success whose
analysis raises yields an `"ERROR:"`-prefixed response; in every case the
record's `remarks` is copied from the item, defaulting to the empty string;
and the batch maps over all items instead of aborting. -/
theorem per_item_failure_isolated (item : JValue) (env : ItemEnv) :
    (env.fetch = .fail →
      process_video item env =
        (JValue.obj [(urlKey, jGetD item urlKey .null),
                     (geminiResponseKey, .str downloadFailMsg),
                     (remarksKey, jGetD item remarksKey (.str []))], false) ∧
      "ERROR:".toList <+: downloadFailMsg) ∧
    (∀ p e, env.fetch = .fetched p → env.analyze = .raised e →
      (process_video item env).1 =
        JValue.obj [(urlKey, jGetD item urlKey .null),
                    (geminiResponseKey, .str (analyzeFailMsg e)),
                    (remarksKey, jGetD item remarksKey (.str []))] ∧
      "ERROR:".toList <+: analyzeFailMsg e) ∧
    (jGet (process_video item env).1 remarksKey
      = some (jGetD item remarksKey (.str []))) ∧
    (∀ pre jobs, runBatch pre jobs = pre ++ jobs.map resultRecord) := by
  refine ⟨?_, ?_, ?_, fun pre jobs => runBatch_eq_append pre jobs⟩
  · intro hf
    refine ⟨?_, by decide⟩
    simp [process_video, hf]
  · intro p e hf ha
    refine ⟨by simp [process_video, hf, ha], ?_⟩
    exact List.IsPrefix.trans (by decide) (List.prefix_append _ e)
  · cases hf : env.fetch with
    | fail => simp only [process_video, hf]; exact jGet_record_remarks _ _ _
    | fetched p =>
      cases ha : env.analyze with
      | ok t => simp only [process_video, hf, ha]; exact jGet_record_remarks _ _ _
      | raised e => simp only [process_video, hf, ha]; exact jGet_record_remarks _ _ _

/-- Witness for C6 at a concrete item whose fetch fails and another whose
analysis raises. -/
theorem per_item_failure_isolated_witness :
    (process_video (JValue.obj [(urlKey, .str "u1".toList)]) ⟨.fail, .ok []⟩ =
      (JValue.obj [(urlKey, jGetD (JValue.obj [(urlKey, .str "u1".toList)]) urlKey .null),
                   (geminiResponseKey, .str downloadFailMsg),
                   (remarksKey,
                     jGetD (JValue.obj [(urlKey, .str "u1".toList)]) remarksKey (.str []))],
       false) ∧
      "ERROR:".toList <+: downloadFailMsg) ∧
    ((process_video (JValue.obj [(urlKey, .str "u2".toList)])
        ⟨.fetched "p".toList, .raised "boom".toList⟩).1 =
      JValue.obj [(urlKey, jGetD (JValue.obj [(urlKey, .str "u2".toList)]) urlKey .null),
                  (geminiResponseKey, .str (analyzeFailMsg "boom".toList)),
                  (remarksKey,
                    jGetD (JValue.obj [(urlKey, .str "u2".toList)]) remarksKey (.str []))] ∧
      "ERROR:".toList <+: analyzeFailMsg "boom".toList) :=
  ⟨(per_item_failure_isolated (JValue.obj [(urlKey, .str "u1".toList)]) ⟨.fail, .ok []⟩).1 rfl,
   ((per_item_failure_isolated (JValue.obj [(urlKey, .str "u2".toList)])
      ⟨.fetched "p".toList, .raised "boom".toList⟩).2.1) "p".toList "boom".toList rfl rfl⟩

/-- C7: loading the result store never aborts a run: a file that parses as a
JSON list is returned as-is, and an absent or unparseable file yields the
empty list, so a corrupt previous result file never blocks a fresh run. -/
theorem load_existing_results_never_aborts :
    (∀ xs, load_existing_results (.parsed (.arr xs)) = xs) ∧
    load_existing_results .absent = [] ∧
    load_existing_results .unparseable = [] :=
  ⟨fun _ => rfl, rfl, rfl⟩

/-! ## Claims about input validation -/

theorem validateItems_eq_none (items : List JValue) :
    ∀ idx, (∀ it ∈ items, itemValid it = true) → validateItems idx items = none := by
  induction items with
  | nil => intro idx _; rfl
  | cons item rest ih =>
    intro idx hall
    have hhead := hall item (List.mem_cons_self _ _)
    cases item with
    | obj fields =>
      have hk : (lookupKey fields urlKey).isSome = true := by
        simpa [itemValid, JValue.hasKey] using hhead
      simp only [validateItems, hk, if_pos]
      exact ih (idx + 1) fun it hit => hall it (List.mem_cons_of_mem _ hit)
    | null => simp [itemValid] at hhead
    | bool b => simp [itemValid] at hhead
    | num q => simp [itemValid] at hhead
    | str s => simp [itemValid] at hhead
    | arr xs => simp [itemValid] at hhead

theorem validateItems_first_bad (items : List JValue) :
    ∀ idx i, i < items.length →
      (∀ j, j < i → itemValid (items.getD j .null) = true) →
      itemValid (items.getD i .null) = false →
      ∃ e, validateItems idx items = some e ∧ e.errIdx = some (idx + i) := by
  induction items with
  | nil => intro idx i hi; simp at hi
  | cons item rest ih =>
    intro idx i hi hgood hbad
    cases i with
    | zero =>
      simp only [List.getD, List.getElem?_cons_zero, Option.getD_some] at hbad
      cases item with
      | obj fields =>
        have hk : (lookupKey fields urlKey).isSome = false := by
          simpa [itemValid, JValue.hasKey] using hbad
        refine ⟨.missingUrl idx, ?_, by simp [InputError.errIdx]⟩
        simp [validateItems, hk]
      | null => exact ⟨.notObject idx, by simp [validateItems, InputError.errIdx]⟩
      | bool b => exact ⟨.notObject idx, by simp [validateItems, InputError.errIdx]⟩
      | num q => exact ⟨.notObject idx, by simp [validateItems, InputError.errIdx]⟩
      | str s => exact ⟨.notObject idx, by simp [validateItems, InputError.errIdx]⟩
      | arr xs => exact ⟨.notObject idx, by simp [validateItems, InputError.errIdx]⟩
    | succ i =>
      have hhead : itemValid item = true := by
        have := hgood 0 (Nat.succ_pos i)
        simpa using this
      cases item with
      | obj fields =>
        have hk : (lookupKey fields urlKey).isSome = true := by
          simpa [itemValid, JValue.hasKey] using hhead
        simp only [validateItems, hk, if_pos]
        have hrest := ih (idx + 1) i (by simpa using Nat.lt_of_succ_lt_succ hi)
          (fun j hj => by simpa using hgood (j + 1) (Nat.succ_lt_succ hj))
          (by simpa using hbad)
        obtain ⟨e, he, hidx⟩ := hrest
        exact ⟨e, he, by rw [hidx]; congr 1; omega⟩
      | null => simp [itemValid] at hhead
      | bool b => simp [itemValid] at hhead
      | num q => simp [itemValid] at hhead
      | str s => simp [itemValid] at hhead
      | arr xs => simp [itemValid] at hhead

/-- C5: input validation is a fatal pre-flight check.  A non-list root fails
with the root error; a list whose elements are all objects with a `url` field
loads unchanged; a list whose first offending element is at index `i` fails
with an error reporting index `i`; and whenever loading fails, the pipeline
produces no batch output at all — no fetch or analyze step runs. -/
theorem input_validation_preflight (data : JValue) :
    ((∀ items, data ≠ .arr items) → load_input_json data = .error .rootNotList) ∧
    (∀ items, data = .arr items →
      ((∀ it ∈ items, itemValid it = true) → load_input_json data = .ok items) ∧
      (∀ i, i < items.length →
        (∀ j, j < i → itemValid (items.getD j .null) = true) →
        itemValid (items.getD i .null) = false →
        ∃ e, load_input_json data = .error e ∧ e.errIdx = some i)) ∧
    (∀ e, load_input_json data = .error e →
      ∀ pre envs, runPipeline data pre envs = none) := by
  refine ⟨?_, ?_, ?_⟩
  · intro hnot
    cases data with
    | arr items => exact absurd rfl (hnot items)
    | null => rfl
    | bool b => rfl
    | num q => rfl
    | str s => rfl
    | obj fields => rfl
  · rintro items rfl
    constructor
    · intro hall
      simp [load_input_json, validateItems_eq_none items 0 hall]
    · intro i hi hgood hbad
      obtain ⟨e, he, hidx⟩ := validateItems_first_bad items 0 i hi hgood hbad
      refine ⟨e, ?_, by simpa using hidx⟩
      simp [load_input_json, he]
  · intro e he pre envs
    simp [runPipeline, he]

/-- Witness for C5: a well-formed two-item input loads unchanged; an input
whose index-1 element lacks `url` fails reporting index 1; and a failing
input yields no pipeline output. -/
theorem input_validation_preflight_witness :
    load_input_json (.arr [JValue.obj [(urlKey, .str "u".toList)],
                           JValue.obj [(urlKey, .str "v".toList)]])
      = .ok [JValue.obj [(urlKey, .str "u".toList)],
             JValue.obj [(urlKey, .str "v".toList)]] ∧
    (∃ e, load_input_json (.arr [JValue.obj [(urlKey, .str "u".toList)],
                                 JValue.obj [(remarksKey, .str "r".toList)]])
        = .error e ∧ e.errIdx = some 1) ∧
    runPipeline JValue.null [] [] = none := by
  refine ⟨?_, ?_, ?_⟩
  · exact ((input_validation_preflight _).2.1 _ rfl).1 (by decide)
  · exact ((input_validation_preflight _).2.1 _ rfl).2 1 (by decide) (by decide) (by decide)
  · exact (input_validation_preflight JValue.null).2.2 .rootNotList
      ((input_validation_preflight JValue.null).1 (fun items h => JValue.noConfusion h)) [] []

/-! ## Claims about the Gemini analyzer -/

/-- C9: after upload the analyzer polls while the reported state is
`"PROCESSING"`, stopping at the first other state regardless of what would
follow; a terminal state other than `"ACTIVE"` raises an error naming that
state instead of issuing the generate-content request, and only `"ACTIVE"`
reaches generate-content. -/
theorem gemini_polls_then_fails_hard (pre : List PyStr) (st : PyStr) (rest : List PyStr)
    (hpre : ∀ s ∈ pre, s = processingState) (hst : st ≠ processingState) :
    pollFileState (pre ++ st :: rest) = some st ∧
    (st ≠ activeState →
      geminiAfterUpload (pre ++ st :: rest)
        = some (.error ("Gemini file upload failed: state=".toList ++ st))) ∧
    (st = activeState → geminiAfterUpload (pre ++ st :: rest) = some (.ok ())) := by
  have hpoll : pollFileState (pre ++ st :: rest) = some st := by
    induction pre with
    | nil => simp [pollFileState, hst]
    | cons s pre ih =>
      have hs : s = processingState := hpre s (List.mem_cons_self _ _)
      simp only [List.cons_append, pollFileState, hs, if_pos rfl]
      exact ih fun x hx => hpre x (List.mem_cons_of_mem _ hx)
  refine ⟨hpoll, ?_, ?_⟩
  · intro hna
    simp [geminiAfterUpload, hpoll, hna]
  · intro ha
    subst ha
    simp [geminiAfterUpload, hpoll]

/-- Witness for C9: two `PROCESSING` polls followed by `FAILED` raise the
state-naming error; followed by `ACTIVE` they reach generate-content. -/
theorem gemini_polls_then_fails_hard_witness :
    geminiAfterUpload [processingState, processingState, "FAILED".toList]
      = some (.error ("Gemini file upload failed: state=".toList ++ "FAILED".toList)) ∧
    geminiAfterUpload [processingState, processingState, activeState] = some (.ok ()) := by
  constructor
  · exact (gemini_polls_then_fails_hard [processingState, processingState] "FAILED".toList []
      (by decide) (by decide)).2.1 (by decide)
  · exact (gemini_polls_then_fails_hard [processingState, processingState] activeState []
      (by decide) (by decide)).2.2 rfl

/-! ## Claims about the clipper -/

theorem num_clips_eq_ceil (total cd : ℚ) (hcd : 0 < cd) :
    num_clips total cd = ⌈total / cd⌉ := by
  have hcd' : cd ≠ 0 := ne_of_gt hcd
  unfold num_clips pyFloorDiv pyMod
  by_cases hint : total / cd = ((⌊total / cd⌋ : ℤ) : ℚ)
  · have h0 : total - cd * ((⌊total / cd⌋ : ℤ) : ℚ) = 0 := by
      have h1 : cd * (total / cd) = total := by field_simp
      rw [← hint, h1]
      ring
    rw [h0]
    norm_num
    conv_rhs => rw [hint]
    rw [Int.ceil_intCast]
  · have hfl : ((⌊total / cd⌋ : ℤ) : ℚ) < total / cd :=
      lt_of_le_of_ne (Int.floor_le _) (fun h => hint h.symm)
    have hpos : 0 < total - cd * ((⌊total / cd⌋ : ℤ) : ℚ) := by
      have h1 : cd * ((⌊total / cd⌋ : ℤ) : ℚ) < cd * (total / cd) :=
        mul_lt_mul_of_pos_left hfl hcd
      have h2 : cd * (total / cd) = total := by field_simp
      rw [h2] at h1
      linarith
    rw [if_pos hpos]
    have hub : ⌈total / cd⌉ ≤ ⌊total / cd⌋ + 1 := by
      apply Int.ceil_le.mpr
      push_cast
      exact (Int.lt_floor_add_one _).le
    have hlb : ⌊total / cd⌋ < ⌈total / cd⌉ := Int.lt_ceil.mpr hfl
    omega

/-- C8: fixed-window clipping computes `⌈total / window⌉` clips; clip `i`
spans `[i * window, min ((i+1) * window) total)`; when the total duration is
positive the last clip's end is truncated to the total duration; and for
total 75 and window 30 the segments are exactly `[0,30), [30,60), [60,75)`. -/
theorem fixed_window_clipping (total cd : ℚ) (hcd : 0 < cd) :
    num_clips total cd = ⌈total / cd⌉ ∧
    (∀ i : Nat, i < (num_clips total cd).toNat →
      (clipSegments total cd)[i]? = some ((i : ℚ) * cd, min (((i : ℚ) + 1) * cd) total)) ∧
    (0 < total → ∃ st, (clipSegments total cd).getLast? = some (st, total)) ∧
    clipSegments 75 30 = [(0, 30), (30, 60), (60, 75)] := by
  refine ⟨num_clips_eq_ceil total cd hcd, ?_, ?_, ?_⟩
  · intro i hi
    rw [clipSegments, List.getElem?_map, List.getElem?_range hi]
    rfl
  · intro htot
    have hx : 0 < total / cd := div_pos htot hcd
    have hceil : 0 < ⌈total / cd⌉ := Int.ceil_pos.mpr hx
    have hn : 0 < (num_clips total cd).toNat := by
      rw [num_clips_eq_ceil total cd hcd]
      omega
    set n := (num_clips total cd).toNat with hndef
    have hlen : (clipSegments total cd).length = n := by
      rw [clipSegments, List.length_map, List.length_range]
    have hlt : n - 1 < n := by omega
    refine ⟨((n - 1 : ℕ) : ℚ) * cd, ?_⟩
    rw [List.getLast?_eq_getElem?, hlen]
    have hget : (clipSegments total cd)[n - 1]?
        = some (((n - 1 : ℕ) : ℚ) * cd, min ((((n - 1 : ℕ) : ℚ) + 1) * cd) total) := by
      rw [clipSegments, List.getElem?_map, List.getElem?_range hlt]
      rfl
    rw [hget]
    have hcast : (((n - 1 : ℕ) : ℚ) + 1) = (n : ℚ) := by
      have : ((n - 1 : ℕ) : ℚ) = (n : ℚ) - 1 := by
        push_cast [Nat.cast_sub hn]
        ring
      rw [this]
      ring
    have htle : total ≤ (n : ℚ) * cd := by
      have h1 : total / cd ≤ ((⌈total / cd⌉ : ℤ) : ℚ) := Int.le_ceil _
      have h2 : ((n : ℕ) : ℚ) = ((⌈total / cd⌉ : ℤ) : ℚ) := by
        rw [hndef, num_clips_eq_ceil total cd hcd]
        exact_mod_cast Int.toNat_of_nonneg (le_of_lt hceil)
      rw [h2]
      calc total = (total / cd) * cd := by field_simp
        _ ≤ ((⌈total / cd⌉ : ℤ) : ℚ) * cd := by
            exact mul_le_mul_of_nonneg_right h1 (le_of_lt hcd)
    rw [hcast, min_eq_right htle]
  · have h3 : num_clips 75 30 = 3 := by norm_num [num_clips, pyFloorDiv, pyMod]
    rw [clipSegments, h3]
    simp [List.range_succ]
    norm_num

/-- Witness for C8 at total duration 75 and window 30. -/
theorem fixed_window_clipping_witness :
    num_clips 75 30 = ⌈(75 : ℚ) / 30⌉ ∧
    (∀ i : Nat, i < (num_clips 75 30).toNat →
      (clipSegments 75 30)[i]? = some ((i : ℚ) * 30, min (((i : ℚ) + 1) * 30) 75)) ∧
    ((0 : ℚ) < 75 → ∃ st, (clipSegments 75 30).getLast? = some (st, 75)) ∧
    clipSegments 75 30 = [(0, 30), (30, 60), (60, 75)] :=
  fixed_window_clipping 75 30 (by norm_num)

/-! ## Claims about frame sampling -/

theorem linspaceIdx_length (T n : Nat) : (linspaceIdx T n).length = n := by
  simp [linspaceIdx]

theorem linspaceIdx_zero_mem (T n : Nat) (hn : 0 < n) : 0 ∈ linspaceIdx T n := by
  simp only [linspaceIdx, List.mem_map]
  exact ⟨0, by simpa using hn, by simp⟩

theorem filterMap_get?_ne_nil {frames idxs : List Nat} (hne : frames ≠ [])
    (h0 : 0 ∈ idxs) : idxs.filterMap (fun i => frames.get? i) ≠ [] := by
  intro hcon
  have hall := List.filterMap_eq_nil_iff.mp hcon 0 h0
  cases frames with
  | nil => exact hne rfl
  | cons a l => simp [List.get?] at hall

/-- C10 (amended): frame sampling validates its count argument and bounds
its output.  `num_frames ≤ 0` is rejected before the video is touched; an
unopenable video or one with no readable frame raises a runtime error; for
`num_frames > 0` and a video with at least one readable frame the result is a
non-empty list of at most `num_frames` frames.  All frames are returned
exactly when the frame-count metadata is non-positive (the sequential-read
fallback) and the video has at most `num_frames` frames; the metadata path
always takes `num_frames` evenly spaced samples, which may repeat a frame. -/
theorem sample_video_frames_bounds (v : Video) (num_frames : Int) :
    (num_frames ≤ 0 → sample_video_frames v num_frames = .error .numFramesNotPositive) ∧
    (0 < num_frames → v.opened = false →
      sample_video_frames v num_frames = .error .openFailed) ∧
    (0 < num_frames → v.opened = true → v.frames = [] →
      sample_video_frames v num_frames = .error .noFramesRead) ∧
    (0 < num_frames → v.opened = true → v.frames ≠ [] →
      ∃ out, sample_video_frames v num_frames = .ok out ∧ out ≠ [] ∧
        out.length ≤ num_frames.toNat) ∧
    (0 < num_frames → v.opened = true → v.reportedFrameCount ≤ 0 → v.frames ≠ [] →
      v.frames.length ≤ num_frames.toNat →
      sample_video_frames v num_frames = .ok v.frames) := by
  refine ⟨?_, ?_, ?_, ?_, ?_⟩
  · intro h
    rw [sample_video_frames, if_pos h]
  · intro h hopen
    rw [sample_video_frames, if_neg (not_le.mpr h), hopen]
    rfl
  · intro h hopen hnil
    rw [sample_video_frames, if_neg (not_le.mpr h), hopen]
    by_cases hrep : v.reportedFrameCount ≤ 0
    · simp [hrep, hnil]
    · simp [hrep, hnil, List.get?]
  · intro h hopen hne
    have hn : 0 < num_frames.toNat := by omega
    rw [sample_video_frames, if_neg (not_le.mpr h), hopen]
    by_cases hrep : v.reportedFrameCount ≤ 0
    · by_cases hlen : v.frames.length ≤ num_frames.toNat
      · refine ⟨v.frames, ?_, hne, hlen⟩
        simp [hrep, hlen, List.isEmpty_iff, hne]
      · refine ⟨(linspaceIdx v.frames.length num_frames.toNat).filterMap
          (fun i => v.frames.get? i), ?_, ?_, ?_⟩
        · simp [hrep, hlen, List.isEmpty_iff, hne]
        · exact filterMap_get?_ne_nil hne (linspaceIdx_zero_mem _ _ hn)
        · calc ((linspaceIdx v.frames.length num_frames.toNat).filterMap
              (fun i => v.frames.get? i)).length
              ≤ (linspaceIdx v.frames.length num_frames.toNat).length :=
                List.length_filterMap_le _ _
            _ = num_frames.toNat := linspaceIdx_length _ _
    · have hsampled : (linspaceIdx v.reportedFrameCount.toNat num_frames.toNat).filterMap
          (fun i => v.frames.get? i) ≠ [] :=
        filterMap_get?_ne_nil hne (linspaceIdx_zero_mem _ _ hn)
      have hEmpty : ((linspaceIdx v.reportedFrameCount.toNat num_frames.toNat).filterMap
          (fun i => v.frames.get? i)).isEmpty = false := by
        rw [Bool.eq_false_iff]
        intro hc
        exact hsampled (List.isEmpty_iff.mp hc)
      refine ⟨(linspaceIdx v.reportedFrameCount.toNat num_frames.toNat).filterMap
        (fun i => v.frames.get? i), ?_, hsampled, ?_⟩
      · simp [hrep, hEmpty]
        exact ⟨0, linspaceIdx_zero_mem _ _ hn, List.length_pos.mpr hne⟩
      · calc ((linspaceIdx v.reportedFrameCount.toNat num_frames.toNat).filterMap
            (fun i => v.frames.get? i)).length
            ≤ (linspaceIdx v.reportedFrameCount.toNat num_frames.toNat).length :=
              List.length_filterMap_le _ _
          _ = num_frames.toNat := linspaceIdx_length _ _
  · intro h hopen hrep hne hlen
    rw [sample_video_frames, if_neg (not_le.mpr h), hopen]
    simp [hrep, hlen, List.isEmpty_iff, hne]

/-- Witness for C10 (amended) at concrete videos: a rejected zero count, an
unopened video, an empty video, a one-frame video sampled twice, and a
metadata-free two-frame video returned whole. -/
theorem sample_video_frames_bounds_witness :
    sample_video_frames ⟨true, [7], 5⟩ 0 = .error .numFramesNotPositive ∧
    sample_video_frames ⟨false, [7], 5⟩ 2 = .error .openFailed ∧
    sample_video_frames ⟨true, [], 5⟩ 2 = .error .noFramesRead ∧
    (∃ out, sample_video_frames ⟨true, [7], 5⟩ 2 = .ok out ∧ out ≠ [] ∧
      out.length ≤ (2 : Int).toNat) ∧
    sample_video_frames ⟨true, [7, 8], 0⟩ 3 = .ok [7, 8] := by
  refine ⟨?_, ?_, ?_, ?_, ?_⟩
  · exact (sample_video_frames_bounds ⟨true, [7], 5⟩ 0).1 (by decide)
  · exact (sample_video_frames_bounds ⟨false, [7], 5⟩ 2).2.1 (by decide) rfl
  · exact (sample_video_frames_bounds ⟨true, [], 5⟩ 2).2.2.1 (by decide) rfl rfl
  · exact (sample_video_frames_bounds ⟨true, [7], 5⟩ 2).2.2.2.1 (by decide) rfl (by decide)
  · exact (sample_video_frames_bounds ⟨true, [7, 8], 0⟩ 3).2.2.2.2 (by decide) rfl
      (by decide) (by decide) (by decide)

/-- C10 counterexample: a video whose frame-count metadata is 2 and whose
two readable frames are `[10, 20]`, sampled with `num_frames = 3`, does not
return "all frames": the evenly spaced indices `[0, 0, 1]` duplicate frame 0,
so the result is `[10, 10, 20]`, not `[10, 20]`. -/
theorem sample_video_frames_counterexample :
    sample_video_frames ⟨true, [10, 20], 2⟩ 3 = .ok [10, 10, 20] ∧
    ([10, 10, 20] : List Nat) ≠ [10, 20] ∧
    sample_video_frames ⟨true, [10, 20], 2⟩ 3 ≠ .ok [10, 20] := by
  refine ⟨rfl, by decide, fun h => ?_⟩
  exact absurd (Except.ok.inj h) (by decide)

/-! ## Supporting lemmas: the link extractor -/

theorem dedupLoop_eq_append (l : List PyStr) :
    ∀ seen uniq, dedupLoop seen uniq l = uniq ++ dedupRest seen l := by
  induction l with
  | nil => intro seen uniq; simp [dedupLoop, dedupRest]
  | cons u rest ih =>
    intro seen uniq
    by_cases hu : u ∈ seen
    · simp [dedupLoop, dedupRest, hu, ih]
    · simp [dedupLoop, dedupRest, hu, ih]

theorem dedupFirstOcc_cons (u : PyStr) (rest : List PyStr) :
    dedupFirstOcc (u :: rest)
      = u :: dedupFirstOcc (rest.filter (fun v => !(v = u : Bool))) := by
  rw [dedupFirstOcc]

theorem dedupFirstOcc_nil : dedupFirstOcc [] = [] := by
  rw [dedupFirstOcc]

theorem dedupRest_eq_filter (l : List PyStr) :
    ∀ seen, dedupRest seen l
      = dedupFirstOcc (l.filter (fun v => !(v ∈ seen : Bool))) := by
  induction l with
  | nil => intro seen; simp [dedupRest, dedupFirstOcc_nil]
  | cons u rest ih =>
    intro seen
    by_cases hu : u ∈ seen
    · rw [dedupRest]
      simp only [if_pos hu]
      rw [ih seen]
      congr 1
      simp [List.filter_cons, hu]
    · rw [dedupRest]
      simp only [if_neg hu]
      have hkeep : (u :: rest).filter (fun v => !(v ∈ seen : Bool))
          = u :: rest.filter (fun v => !(v ∈ seen : Bool)) := by
        simp [List.filter_cons, hu]
      rw [hkeep, dedupFirstOcc_cons, ih (u :: seen)]
      congr 2
      rw [List.filter_filter]
      apply List.filter_congr
      intro v hv
      by_cases h1 : v = u <;> by_cases h2 : v ∈ seen <;>
        simp [h1, h2, List.mem_cons]

theorem load_links_eq_dedupFirstOcc (links : List PyStr) :
    load_links links = dedupFirstOcc (filterStripLinks links) := by
  rw [load_links, dedupLoop_eq_append, dedupRest_eq_filter]
  simp only [List.nil_append]
  congr 1
  apply List.filter_eq_self.mpr
  intro a _
  simp

theorem dedupFirstOcc_sublist : ∀ l : List PyStr, (dedupFirstOcc l).Sublist l := by
  intro l
  induction l using dedupFirstOcc.induct with
  | case1 => rw [dedupFirstOcc_nil]
  | case2 u rest ih =>
    rw [dedupFirstOcc_cons]
    exact (ih.trans (List.filter_sublist _)).cons₂ u

theorem mem_dedupFirstOcc : ∀ (l : List PyStr) (a : PyStr), a ∈ dedupFirstOcc l ↔ a ∈ l := by
  intro l
  induction l using dedupFirstOcc.induct with
  | case1 => intro a; rw [dedupFirstOcc_nil]
  | case2 u rest ih =>
    intro a
    rw [dedupFirstOcc_cons]
    simp only [List.mem_cons, ih, List.mem_filter]
    by_cases ha : a = u
    · simp [ha]
    · simp [ha]

theorem dedupFirstOcc_nodup : ∀ l : List PyStr, (dedupFirstOcc l).Nodup := by
  intro l
  induction l using dedupFirstOcc.induct with
  | case1 => rw [dedupFirstOcc_nil]; exact List.nodup_nil
  | case2 u rest ih =>
    rw [dedupFirstOcc_cons]
    refine List.nodup_cons.mpr ⟨?_, ih⟩
    intro hmem
    rw [mem_dedupFirstOcc] at hmem
    have hfx := (List.mem_filter.mp hmem).2
    simp at hfx

theorem dedupFirstOcc_eq_self_of_nodup :
    ∀ l : List PyStr, l.Nodup → dedupFirstOcc l = l := by
  intro l
  induction l using dedupFirstOcc.induct with
  | case1 => intro _; exact dedupFirstOcc_nil
  | case2 u rest ih =>
    intro h
    obtain ⟨hu, hrest⟩ := List.nodup_cons.mp h
    have hfilter : rest.filter (fun v => !(v = u : Bool)) = rest := by
      apply List.filter_eq_self.mpr
      intro a ha
      simp only [Bool.not_eq_eq_eq_not, Bool.not_true, decide_eq_false_iff_not]
      exact fun hc => hu (hc ▸ ha)
    rw [hfilter] at ih
    rw [dedupFirstOcc_cons, hfilter, ih hrest]

/-! ## Supporting lemmas: stripping and the domain filter -/

theorem pyStrip_idem (s : PyStr) : pyStrip (pyStrip s) = pyStrip s := by
  unfold pyStrip
  have h1 : ((s.dropWhile Char.isWhitespace).rdropWhile Char.isWhitespace).dropWhile
      Char.isWhitespace
      = (s.dropWhile Char.isWhitespace).rdropWhile Char.isWhitespace := by
    rcases hr : (s.dropWhile Char.isWhitespace).rdropWhile Char.isWhitespace with _ | ⟨c, rs⟩
    · rfl
    · obtain ⟨t, ht⟩ :=
        List.rdropWhile_prefix Char.isWhitespace (s.dropWhile Char.isWhitespace)
      rw [hr] at ht
      have hhead : (s.dropWhile Char.isWhitespace).head? = some c := by
        rw [← ht]
        rfl
      have hc : Char.isWhitespace c = false := by
        have hmatch := List.head?_dropWhile_not Char.isWhitespace s
        rw [hhead] at hmatch
        exact hmatch
      rw [List.dropWhile_cons, hc]
      simp
  rw [h1, List.rdropWhile_idempotent]

theorem infix_dropWhile_aux (p : Char → Bool) (c : Char) (sub t : List Char)
    (hc : p c = false) :
    ∀ s : List Char, (c :: sub) <:+: (s ++ ((c :: sub) ++ t)).dropWhile p := by
  intro s
  induction s with
  | nil =>
    rw [List.nil_append, List.cons_append, List.dropWhile_cons, hc]
    simp only [Bool.false_eq_true, if_false]
    exact ⟨[], t, by simp⟩
  | cons x s ih =>
    rw [List.cons_append, List.dropWhile_cons]
    by_cases hx : p x
    · rw [if_pos hx]
      exact ih
    · rw [if_neg hx]
      exact ⟨x :: s, t, by simp⟩

theorem infix_dropWhile_of_head (p : Char → Bool) (c : Char) (sub l : List Char)
    (hc : p c = false) (h : (c :: sub) <:+: l) : (c :: sub) <:+: l.dropWhile p := by
  obtain ⟨s, t, rfl⟩ := h
  have haux := infix_dropWhile_aux p c sub t hc s
  simpa [List.append_assoc] using haux

theorem infix_dropWhile_of_forall (p : Char → Bool) (sub l : List Char)
    (hall : ∀ ch ∈ sub, p ch = false) (hne : sub ≠ []) (h : sub <:+: l) :
    sub <:+: l.dropWhile p := by
  cases sub with
  | nil => exact absurd rfl hne
  | cons c sub =>
    exact infix_dropWhile_of_head p c sub l (hall c (List.mem_cons_self _ _)) h

theorem infix_rdropWhile_of_forall (p : Char → Bool) (sub l : List Char)
    (hall : ∀ ch ∈ sub, p ch = false) (hne : sub ≠ []) (h : sub <:+: l) :
    sub <:+: l.rdropWhile p := by
  rw [List.rdropWhile, ← List.reverse_reverse sub, List.reverse_infix]
  apply infix_dropWhile_of_forall
  · intro ch hch
    exact hall ch (List.mem_reverse.mp hch)
  · simpa using hne
  · exact List.reverse_infix.mpr h

theorem infix_pyStrip_of_forall (sub u : List Char)
    (hall : ∀ ch ∈ sub, ch.isWhitespace = false) (hne : sub ≠ []) (h : sub <:+: u) :
    sub <:+: pyStrip u := by
  unfold pyStrip
  exact infix_rdropWhile_of_forall _ _ _ hall hne
    (infix_dropWhile_of_forall _ _ _ hall hne h)

theorem isYoutubeLink_pyStrip (u : PyStr) (h : isYoutubeLink u = true) :
    isYoutubeLink (pyStrip u) = true := by
  unfold isYoutubeLink at h ⊢
  simp only [Bool.or_eq_true, decide_eq_true_eq] at h ⊢
  rcases h with h | h
  · exact Or.inl (infix_pyStrip_of_forall _ _ (by decide) (by decide) h)
  · exact Or.inr (infix_pyStrip_of_forall _ _ (by decide) (by decide) h)

theorem mem_filterStripLinks {u : PyStr} {links : List PyStr}
    (h : u ∈ filterStripLinks links) : isYoutubeLink u = true ∧ pyStrip u = u := by
  rw [filterStripLinks] at h
  obtain ⟨w, hw, rfl⟩ := List.mem_map.mp h
  have hwf := List.mem_filter.mp hw
  exact ⟨isYoutubeLink_pyStrip w hwf.2, pyStrip_idem w⟩

theorem filterStripLinks_of_invariant (l : List PyStr)
    (hinv : ∀ u ∈ l, isYoutubeLink u = true ∧ pyStrip u = u) :
    filterStripLinks l = l := by
  rw [filterStripLinks, List.filter_eq_self.mpr (fun a ha => (hinv a ha).1)]
  rw [List.map_congr_left (fun a ha => (hinv a ha).2)]
  exact List.map_id l

/-! ## Claims about the link extractor -/

/-- C3 counterexample: the youtube-domain filter runs before deduplication,
so the input `["a","a","b","a"]` — none of whose entries contain a youtube
domain — extracts to `[]`, not to `["a","b"]` as the claim states. -/
theorem load_links_dedup_counterexample :
    load_links ["a".toList, "a".toList, "b".toList, "a".toList] = [] ∧
    load_links ["a".toList, "a".toList, "b".toList, "a".toList]
      ≠ ["a".toList, "b".toList] := by
  exact ⟨by decide, by decide⟩

/-- C3 (amended): link extraction deduplicates first-occurrence-wins and
order-preserving among the URLs retained by the youtube-domain filter: the
extraction is exactly first-occurrence deduplication of the filtered,
stripped list, its output is duplicate-free, is an order-preserving sublist
of the retained URLs, and keeps exactly the retained URLs.  The domain filter
precedes dedup, so `["a","a","b","a"]` yields `[]`, while the youtube-domain
analogue yields first-occurrence order `["youtube.com/a","youtube.com/b"]`. -/
theorem load_links_dedup_first_occurrence (links : List PyStr) :
    load_links links = dedupFirstOcc (filterStripLinks links) ∧
    (load_links links).Nodup ∧
    (load_links links).Sublist (filterStripLinks links) ∧
    (∀ u, u ∈ load_links links ↔ u ∈ filterStripLinks links) ∧
    load_links ["youtube.com/a".toList, "youtube.com/a".toList,
                "youtube.com/b".toList, "youtube.com/a".toList]
      = ["youtube.com/a".toList, "youtube.com/b".toList] ∧
    load_links ["a".toList, "a".toList, "b".toList, "a".toList] = [] := by
  refine ⟨load_links_eq_dedupFirstOcc links, ?_, ?_, ?_, by decide, by decide⟩
  · rw [load_links_eq_dedupFirstOcc]
    exact dedupFirstOcc_nodup _
  · rw [load_links_eq_dedupFirstOcc]
    exact dedupFirstOcc_sublist _
  · intro u
    rw [load_links_eq_dedupFirstOcc]
    exact mem_dedupFirstOcc _ u

/-- C4: the link-extraction transformation (domain filtering, whitespace
stripping, order-preserving dedup) is idempotent: applying it to its own
output returns that output unchanged. -/
theorem load_links_idempotent (links : List PyStr) :
    load_links (load_links links) = load_links links := by
  have hinv : ∀ u ∈ load_links links, isYoutubeLink u = true ∧ pyStrip u = u := by
    intro u hu
    rw [load_links_eq_dedupFirstOcc] at hu
    exact mem_filterStripLinks ((mem_dedupFirstOcc _ u).mp hu)
  rw [load_links_eq_dedupFirstOcc (load_links links),
    filterStripLinks_of_invariant _ hinv]
  apply dedupFirstOcc_eq_self_of_nodup
  rw [load_links_eq_dedupFirstOcc]
  exact dedupFirstOcc_nodup _

end VEA
